import Mathlib

/-!
Shallow embedding of the `darpa_planning` A* planner header
(`include/darpa_planning_lib/astar_planner.h`) of `subt_planning_lib`.

The inline code of the header — the `Node` comparison operators, the
priority-queue comparator `NodeCompare`, the `NodeHasher`, and
`AstarPriorityQueue::conditional_remove` — is translated directly.  The
out-of-line member functions of `AstarPlanner` are only declared in the
header; where a property depends on them the missing function is modelled
from the specification and its doc comment says so.  C++ `double` values
are embedded as rationals; the key components (16-bit unsigned integers in
octomap, described as signed integers by the specification) are embedded
as integers — none of the translated code performs wrapping arithmetic on
them (the C++ component sums are computed after promotion to `int`).
-/

namespace DarpaPlanning

/-- Discrete grid key: the three integer voxel coordinates of an
`octomap::OcTreeKey`. -/
@[ext]
structure GKey where
  x : Int
  y : Int
  z : Int
deriving DecidableEq, Repr

/-- Search node record, mirroring `struct Node` of the header.  The cached
world pose is omitted: no operation translated here reads it. -/
structure Node where
  key : GKey := ⟨0, 0, 0⟩
  parent_key : GKey := ⟨0, 0, 0⟩
  g_cost : ℚ := 0
  h_cost : ℚ := 0
  f_cost : ℚ := 0
  unnorm_cost : ℚ := 0
  obs_cost : ℚ := 0
  path_cost : ℚ := 0
  n_nodes : Int := 0
deriving DecidableEq, Repr

/-- Componentwise key equality, as in the member `Node::operator==` and the
free `operator==(const Node&, const Node&)` of the header. -/
def nodeEq (a b : Node) : Bool :=
  (a.key.x == b.key.x) && (a.key.y == b.key.y) && (a.key.z == b.key.z)

/-- Member `Node::operator<` (and the identical free `operator<`): compares
the sums of the key components and additionally requires the keys not to be
identical. -/
def nodeLt (a b : Node) : Bool :=
  (decide (a.key.x + a.key.y + a.key.z < b.key.x + b.key.y + b.key.z)) &&
    ((a.key.x != b.key.x) || (a.key.y != b.key.y) || (a.key.z != b.key.z))

/-- Member `Node::operator>`, the mirror image of `Node::operator<`. -/
def nodeGt (a b : Node) : Bool :=
  (decide (b.key.x + b.key.y + b.key.z < a.key.x + a.key.y + a.key.z)) &&
    ((a.key.x != b.key.x) || (a.key.y != b.key.y) || (a.key.z != b.key.z))

/-- `NodeCompare`, the comparator of the open-list priority queue: orders by
`g_cost` alone (`lhs.g_cost > rhs.g_cost`). -/
def nodeCompare (lhs rhs : Node) : Bool :=
  decide (rhs.g_cost < lhs.g_cost)

/-- Width of `std::size_t` on the target platform (64 bits). -/
def sizeTW : Nat := 2 ^ 64

/-- `NodeHasher`: combines the hashes of the three key components with
shifts and xors in `std::size_t` arithmetic; `h` stands for the
implementation-defined `std::hash<int>`, kept abstract. -/
def nodeHasher (h : Int → Nat) (n : Node) : Nat :=
  let h0 := h n.key.x % sizeTW
  let h1 := (h n.key.y % sizeTW) <<< 1 % sizeTW
  let h2 := (h n.key.z % sizeTW) <<< 1 % sizeTW
  (((h0 ^^^ h1) >>> 1) ^^^ h2) % sizeTW

/-- `AstarPriorityQueue::conditional_remove`, translated over the queue's
underlying container as a list: find the first entry whose key equals the
key of `value`; when its stored `f_cost` exceeds `cost_value` erase it and
return 1; when it does not, leave the queue unchanged and return -1; when
no entry matches return 0.  (The `std::make_heap` call after the erase only
reorders the container; the list embedding keeps erase order.) -/
def conditional_remove : List Node → Node → ℚ → Int × List Node
  | [], _, _ => (0, [])
  | n :: rest, value, cost_value =>
    if nodeEq n value then
      if cost_value < n.f_cost then (1, rest) else (-1, n :: rest)
    else
      let r := conditional_remove rest value cost_value
      (r.1, n :: r.2)

/-- Variant of conditional remove written from the specification's words
"remove the existing entry for that key only if its stored cost is strictly
worse than the candidate", reading the stored cost as the cost that orders
the queue (`g_cost`); for comparison with the translated
`conditional_remove`, which consults `f_cost`. -/
def conditional_remove_by_g : List Node → Node → ℚ → Int × List Node
  | [], _, _ => (0, [])
  | n :: rest, value, cost_value =>
    if nodeEq n value then
      if cost_value < n.g_cost then (1, rest) else (-1, n :: rest)
    else
      let r := conditional_remove_by_g rest value cost_value
      (r.1, n :: r.2)

/-- Pop of the open-list priority queue under `NodeCompare`, modelling
`std::priority_queue::top`/`pop` over the container: removes an element
that no other element beats under the comparator, i.e. one of minimal
`g_cost`; ties resolve to the earliest such element. -/
def popTop : List Node → Option (Node × List Node)
  | [] => none
  | n :: rest =>
    match popTop rest with
    | none => some (n, [])
    | some (m, rest2) =>
      if n.g_cost ≤ m.g_cost then some (n, rest) else some (m, n :: rest2)

/-- Number of entries of the container whose key matches the probe node. -/
def countKey (q : List Node) (v : Node) : Nat :=
  (q.filter (fun n => nodeEq n v)).length

/-- Concrete probe node with key (7,8,9) and no costs set. -/
def probeK : Node := { key := ⟨7, 8, 9⟩ }

/-- Concrete frontier entry with key (7,8,9) and stored cost 10. -/
def entryK10 : Node := { key := ⟨7, 8, 9⟩, f_cost := 10 }

/-- Concrete counterexample node: queue-ordering cost 10, stored combined
cost field 0. -/
def cexGNode : Node := { key := ⟨1, 1, 1⟩, g_cost := 10, f_cost := 0 }

/-- Probe for the counterexample node's key. -/
def cexGProbe : Node := { key := ⟨1, 1, 1⟩ }

/-- Concrete frontier node of cost 3. -/
def popA : Node := { key := ⟨0, 0, 0⟩, g_cost := 3 }

/-- Concrete frontier node of cost 2. -/
def popB : Node := { key := ⟨0, 0, 1⟩, g_cost := 2 }

/-- Modelled from the spec: `areKeysInNeighborhood` under 26-connectivity
(the implementation is declared but not defined in the header) — two keys
are adjacent when each of the three key coordinates differs by at most 1. -/
def adj26 (a b : GKey) : Bool :=
  decide ((b.x - a.x).natAbs ≤ 1) && decide ((b.y - a.y).natAbs ≤ 1) &&
    decide ((b.z - a.z).natAbs ≤ 1)

/-- Modelled from the spec: adjacency under 6-connectivity — exactly one
coordinate differs, and it differs by exactly 1. -/
def adj6 (a b : GKey) : Bool :=
  decide (((b.x - a.x).natAbs = 1 ∧ b.y = a.y ∧ b.z = a.z) ∨
    (b.x = a.x ∧ (b.y - a.y).natAbs = 1 ∧ b.z = a.z) ∨
    (b.x = a.x ∧ b.y = a.y ∧ (b.z - a.z).natAbs = 1))

/-- Modelled from the spec: adjacency under the active connectivity mode
(`use_neighborhood_6_`). -/
def adjacentMode (use6 : Bool) (a b : GKey) : Bool :=
  if use6 then adj6 a b else adj26 a b

/-- Chebyshev (chessboard) distance between keys: the step metric of
26-connected moves. -/
def chebDist (a b : GKey) : Nat :=
  max (max (b.x - a.x).natAbs (b.y - a.y).natAbs) (b.z - a.z).natAbs

/-- Manhattan distance between keys: the step metric of 6-connected moves
(`keyManhattanDist` of the header). -/
def manDist (a b : GKey) : Nat :=
  (b.x - a.x).natAbs + (b.y - a.y).natAbs + (b.z - a.z).natAbs

/-- Step metric of the active connectivity mode. -/
def modeDist (use6 : Bool) (a b : GKey) : Nat :=
  if use6 then manDist a b else chebDist a b

/-- Integer sign. -/
def isgn (i : Int) : Int :=
  if 0 < i then 1 else if i < 0 then -1 else 0

/-- One 26-connected step from `a` straight toward `b`: every coordinate
moves one voxel toward its target. -/
def chebStep (a b : GKey) : GKey :=
  ⟨a.x + isgn (b.x - a.x), a.y + isgn (b.y - a.y), a.z + isgn (b.z - a.z)⟩

/-- One 6-connected step from `a` toward `b`: the first differing
coordinate moves one voxel toward its target ("one-axis-at-a-time"). -/
def manStep (a b : GKey) : GKey :=
  if a.x ≠ b.x then ⟨a.x + isgn (b.x - a.x), a.y, a.z⟩
  else if a.y ≠ b.y then ⟨a.x, a.y + isgn (b.y - a.y), a.z⟩
  else ⟨a.x, a.y, a.z + isgn (b.z - a.z)⟩

/-- Iterated stepping toward a target, used to rasterize a straight
segment of grid keys; the produced list excludes the source and ends at
the target once the fuel equals the step distance. -/
def chainAux (step : GKey → GKey → GKey) : Nat → GKey → GKey → List GKey
  | 0, _, _ => []
  | n + 1, a, b => step a b :: chainAux step n (step a b) b

/-- Modelled from the spec: the connector keys synthesized between two
non-adjacent keys (`getAdditionalWaypoints` / `getConnectionNode` /
`generatePossibleConnectionsDiagonalKeys`, declared but not defined in the
header): the straight chain of keys bridging `a` to `b` one step at a
time under the active connectivity mode (the spec additionally selects
among candidate bridges by obstacle distance; the model fixes a canonical
axis order, which affects neither length nor adjacency). -/
def chainMode (use6 : Bool) (a b : GKey) : List GKey :=
  if use6 then chainAux manStep (manDist a b) a b
  else chainAux chebStep (chebDist a b) a b

/-- Modelled from the spec: the straightening scan of
`getStraightenKeyPath` (declared but not defined in the header) — from the
current anchor, skip ahead while the line-of-sight check `los` accepts the
segment, then replace the skipped run by the straight connector chain;
connector keys are synthesized whenever the segment endpoints are not
directly adjacent. -/
def straightenFrom (los : GKey → GKey → Bool) (use6 : Bool) : GKey → List GKey → List GKey
  | _, [] => []
  | a, [k] => chainMode use6 a k
  | a, k1 :: k2 :: rest =>
    if los a k2 then straightenFrom los use6 a (k2 :: rest)
    else chainMode use6 a k1 ++ straightenFrom los use6 k1 (k2 :: rest)

/-- Modelled from the spec: `getStraightenKeyPath` — the first waypoint is
kept and the rest of the path is straightened against the line-of-sight
oracle. -/
def getStraightenKeyPathModel (los : GKey → GKey → Bool) (use6 : Bool) :
    List GKey → List GKey
  | [] => []
  | a :: rest => a :: straightenFrom los use6 a rest

/-- Modelled from the spec: the sliding-window filtering pass
(`getFilteredPlan`, declared but not defined in the header) — inside a
window of three consecutive waypoints, the middle one is dropped when its
two window neighbors are themselves adjacent under the active mode. -/
def getFilteredPlanModel (use6 : Bool) (l : List GKey) : List GKey :=
  match l with
  | [] => []
  | [a] => [a]
  | [a, b] => [a, b]
  | a :: b :: c2 :: rest =>
    if adjacentMode use6 a c2 then getFilteredPlanModel use6 (a :: c2 :: rest)
    else a :: getFilteredPlanModel use6 (b :: c2 :: rest)
termination_by l.length
decreasing_by
  all_goals simp

/-- Modelled from the spec: `getSmoothPath` — re-run filtering and
straightening until the path reaches a fixed point or a pass-count
ceiling is hit. -/
def getSmoothPathModel (los : GKey → GKey → Bool) (use6 : Bool) :
    Nat → List GKey → List GKey
  | 0, p => p
  | fuel + 1, p =>
    if getStraightenKeyPathModel los use6 (getFilteredPlanModel use6 p) = p then p
    else getSmoothPathModel los use6 fuel
      (getStraightenKeyPathModel los use6 (getFilteredPlanModel use6 p))

/-- All 26 neighbor offsets of a key. -/
def offsets26 : List (Int × Int × Int) :=
  [(-1, -1, -1), (-1, -1, 0), (-1, -1, 1), (-1, 0, -1), (-1, 0, 0), (-1, 0, 1),
   (-1, 1, -1), (-1, 1, 0), (-1, 1, 1), (0, -1, -1), (0, -1, 0), (0, -1, 1),
   (0, 0, -1), (0, 0, 1), (0, 1, -1), (0, 1, 0), (0, 1, 1), (1, -1, -1),
   (1, -1, 0), (1, -1, 1), (1, 0, -1), (1, 0, 0), (1, 0, 1), (1, 1, -1),
   (1, 1, 0), (1, 1, 1)]

/-- The 6 face-neighbor offsets of a key. -/
def offsets6 : List (Int × Int × Int) :=
  [(1, 0, 0), (-1, 0, 0), (0, 1, 0), (0, -1, 0), (0, 0, 1), (0, 0, -1)]

/-- Shift of a key by an offset triple. -/
def keyShift (k : GKey) (o : Int × Int × Int) : GKey :=
  ⟨k.x + o.1, k.y + o.2.1, k.z + o.2.2⟩

/-- Modelled from the spec: the neighborhood enumeration
(`getKeyNeighborhood6` / `getKeyNeighborhood26`, declared but not defined
in the header). -/
def neighborKeys (use6 : Bool) (k : GKey) : List GKey :=
  (if use6 then offsets6 else offsets26).map (keyShift k)

/-- First element maximizing `f`, scanning from the right. -/
def argmaxBy (f : GKey → ℚ) : List GKey → Option GKey
  | [] => none
  | k :: rest =>
    match argmaxBy f rest with
    | none => some k
    | some m => if f k < f m then some m else some k

/-- Modelled from the spec: `getBestNeighbor` (declared but not defined in
the header) — among the valid 26-neighbors whose vertical drift stays
within the z tolerance, the one farthest from the nearest obstacle; the
key itself when no candidate qualifies. -/
def getBestNeighborModel (dist : GKey → ℚ) (valid : GKey → Bool) (zTol : ℚ)
    (k : GKey) : GKey :=
  match argmaxBy dist ((neighborKeys false k).filter fun c =>
      valid c && decide (|((c.z - k.z : Int) : ℚ)| ≤ zTol)) with
  | none => k
  | some m => m

/-- Modelled from the spec: one relocation sweep of `getSafePath` — each
waypoint closer than `safe_dist` to an obstacle is moved to its best valid
neighbor, a connector chain re-establishing adjacency with the previous
waypoint is inserted when the relocation breaks it, and the final waypoint
is pinned when `fix_goal_point` is set. -/
def safePassAux (dist : GKey → ℚ) (valid : GKey → Bool) (safe_dist zTol : ℚ)
    (use6 fix_goal : Bool) : GKey → List GKey → List GKey
  | _, [] => []
  | prev, k :: rest =>
    if safe_dist ≤ dist k then
      k :: safePassAux dist valid safe_dist zTol use6 fix_goal k rest
    else if fix_goal && rest.isEmpty then
      [k]
    else
      let k2 := getBestNeighborModel dist valid zTol k
      let bridge := if adjacentMode use6 prev k2 then [k2] else chainMode use6 prev k2
      bridge ++ safePassAux dist valid safe_dist zTol use6 fix_goal k2 rest

/-- Modelled from the spec: one full pass of `getSafePath` over a path. -/
def safePass (dist : GKey → ℚ) (valid : GKey → Bool) (safe_dist zTol : ℚ)
    (use6 fix_goal : Bool) (p : List GKey) : List GKey :=
  match p with
  | [] => []
  | a :: _ => safePassAux dist valid safe_dist zTol use6 fix_goal a p

/-- Modelled from the spec: `getSafePath` (declared but not defined in the
header) — iterate the relocation sweep until the path stabilizes or the
iteration budget `max_iteration` is exhausted. -/
def getSafePathModel (dist : GKey → ℚ) (valid : GKey → Bool) (safe_dist zTol : ℚ)
    (use6 fix_goal : Bool) : Nat → List GKey → List GKey
  | 0, p => p
  | it + 1, p =>
    if safePass dist valid safe_dist zTol use6 fix_goal p = p then p
    else getSafePathModel dist valid safe_dist zTol use6 fix_goal it
      (safePass dist valid safe_dist zTol use6 fix_goal p)

/-- Executable pairwise-adjacency check over a key path, the Bool mirror
of the chain predicate used in the connectivity statements. -/
def pairwiseAdjacent (use6 : Bool) : List GKey → Bool
  | [] => true
  | [_] => true
  | a :: b :: rest => adjacentMode use6 a b && pairwiseAdjacent use6 (b :: rest)

/-- Axis-aligned key extents of the search region (`GridParams` of the
header, expressed over keys as the specification's GridBounds). -/
structure GridBounds where
  min_x : Int
  min_y : Int
  min_z : Int
  max_x : Int
  max_y : Int
  max_z : Int
deriving DecidableEq, Repr

/-- Modelled from the spec: `checkLimits` — a key lies inside the search
region's axis-aligned bounds. -/
def inBounds (gb : GridBounds) (k : GKey) : Bool :=
  decide (gb.min_x ≤ k.x ∧ k.x ≤ gb.max_x ∧ gb.min_y ≤ k.y ∧ k.y ≤ gb.max_y ∧
    gb.min_z ≤ k.z ∧ k.z ≤ gb.max_z)

/-- Modelled from the spec: `isNodeValid` (declared but not defined in the
header) — a key is valid when it lies inside GridBounds and is not
occupied in the occupancy map. -/
def isNodeValidM (gb : GridBounds) (occ : GKey → Bool) (k : GKey) : Bool :=
  inBounds gb k && !occ k

/-- Failure kinds of a planning call, as the specification's error model
names them. -/
inductive PlanError where
  | invalidEndpoint
  | unreachable
  | timeout
deriving DecidableEq, Repr

/-- Cost policy of the search: incremental step cost, heuristic to goal,
and obstacle-proximity penalty.  The specification leaves the exact curves
tunable, so they enter the model as parameters. -/
structure CostModel where
  step : GKey → GKey → ℚ
  heur : GKey → ℚ
  obs : GKey → ℚ

/-- Search configuration: connectivity mode, timeout budget and the
`break_at_timeout` flag. -/
structure SearchConfig where
  use6 : Bool
  planning_timeout : ℚ
  break_at_timeout : Bool

/-- Search state: open list, closed list, and the best node found so far. -/
structure SState where
  openl : List Node
  closed : List Node
  best : Node
deriving Repr

/-- Lookup of a finalized node by key in the closed list. -/
def lookupClosed (closed : List Node) (k : GKey) : Option Node :=
  closed.find? (fun m => m.key == k)

/-- Modelled from the spec: path reconstruction by repeated parent-key
lookup in the closed set, from a node back to the start key. -/
def reconstructPath (closed : List Node) (start_key : GKey) : Nat → Node → List Node
  | 0, n => [n]
  | fuel + 1, n =>
    if n.key = start_key then [n]
    else
      match lookupClosed closed n.parent_key with
      | none => [n]
      | some p => reconstructPath closed start_key fuel p ++ [n]

/-- Modelled from the spec: construction of one accepted successor node —
accumulated cost grows by the step cost, the combined priority adds the
heuristic and the obstacle penalty, the parent back-pointer is the
expanded key, and the hop counter increments. -/
def mkSuccessor (C : CostModel) (cur : Node) (k : GKey) : Node :=
  let g := cur.g_cost + C.step cur.key k
  let hh := C.heur k
  let ob := C.obs k
  { key := k, parent_key := cur.key, g_cost := g, h_cost := hh,
    f_cost := g + hh + ob, obs_cost := ob, n_nodes := cur.n_nodes + 1 }

/-- Whether the closed list already holds the node's key with
equal-or-better cost. -/
def closedBetter (closed : List Node) (n : Node) : Bool :=
  match lookupClosed closed n.key with
  | none => false
  | some m => decide (m.f_cost ≤ n.f_cost)

/-- Modelled from the spec: decrease-key insertion into the open list — an
equal-key entry is replaced only when the new cost is strictly better
(conditional removal + reinsertion, using the translated
`conditional_remove`). -/
def pushOpen (openl : List Node) (n : Node) : List Node :=
  if (conditional_remove openl n n.f_cost).1 = -1 then
    (conditional_remove openl n n.f_cost).2
  else n :: (conditional_remove openl n n.f_cost).2

/-- Modelled from the spec: successor generation — candidate keys are the
6- or 26-neighborhood of the expanded key, rejected when outside bounds or
occupied (`valid`) or when the precomputed diagonal-pruning tables forbid
the move (`pruneOk`, left abstract: the tables only reject moves). -/
def getSuccessors (P : SearchConfig) (valid : GKey → Bool)
    (pruneOk : GKey → GKey → Bool) (C : CostModel) (cur : Node) : List Node :=
  ((neighborKeys P.use6 cur.key).filter fun k => valid k && pruneOk cur.key k).map
    (mkSuccessor C cur)

/-- Best-node tracking for the `break_at_timeout` fallback. -/
def updateBest (best n : Node) : Node :=
  if n.f_cost < best.f_cost then n else best

/-- Modelled from the spec: the best-first expansion loop of `getNodePath`
(declared but not defined in the header).  Each iteration first polls the
wall clock (abstracted as the map `elapsed` from iteration count to
elapsed seconds): past the timeout it either reconstructs the best node
found so far (`break_at_timeout`) or fails with the timeout kind.
Otherwise it pops the lowest-`g_cost` node; an exhausted frontier fails as
unreachable; reaching the goal key reconstructs the path; a stale pop
(closed with equal-or-better cost) is skipped; and an expansion finalizes
the node and pushes its surviving successors with decrease-key semantics.
Fuel exhaustion reports the frontier as exhausted. -/
def astarLoop (P : SearchConfig) (valid : GKey → Bool)
    (pruneOk : GKey → GKey → Bool) (C : CostModel) (start_key goal_key : GKey)
    (elapsed : Nat → ℚ) : Nat → Nat → SState → Except PlanError (List Node)
  | 0, _, _ => Except.error PlanError.unreachable
  | fuel + 1, iter, st =>
    if P.planning_timeout < elapsed iter then
      if P.break_at_timeout then
        Except.ok (reconstructPath st.closed start_key (st.closed.length + 1) st.best)
      else Except.error PlanError.timeout
    else
      match popTop st.openl with
      | none => Except.error PlanError.unreachable
      | some (n, rest) =>
        if n.key = goal_key then
          Except.ok (reconstructPath (n :: st.closed) start_key (st.closed.length + 1) n)
        else if closedBetter st.closed n then
          astarLoop P valid pruneOk C start_key goal_key elapsed fuel (iter + 1)
            { st with openl := rest }
        else
          let closed2 := n :: st.closed
          let succs := (getSuccessors P valid pruneOk C n).filter fun s =>
            !closedBetter closed2 s
          astarLoop P valid pruneOk C start_key goal_key elapsed fuel (iter + 1)
            { openl := succs.foldl pushOpen rest, closed := closed2,
              best := updateBest st.best n }

/-- Modelled from the spec: goal resolution — the literal goal key when
valid; otherwise, when planning to an unreachable goal is enabled, a valid
key from a bounded neighborhood of the goal; otherwise no goal. -/
def findValidGoal (enable_unreachable : Bool) (valid : GKey → Bool)
    (goal : GKey) : Option GKey :=
  if valid goal then some goal
  else if enable_unreachable then (neighborKeys false goal).find? valid
  else none

/-- Modelled from the spec: the start node, seeded with accumulated cost
0 and its own key as parent. -/
def startNode (C : CostModel) (k : GKey) : Node :=
  { key := k, parent_key := k, g_cost := 0, h_cost := C.heur k,
    f_cost := C.heur k + C.obs k, obs_cost := C.obs k, n_nodes := 0 }

/-- Modelled from the spec: `getNodePath` — validate the endpoints
(failing as invalid-endpoint), resolve the goal, and run the best-first
loop from the seeded start node; every failure is surfaced as a
`PlanError` kind and success carries the reconstructed node path. -/
def getNodePathModel (P : SearchConfig) (enable_unreachable : Bool)
    (gb : GridBounds) (occ : GKey → Bool) (pruneOk : GKey → GKey → Bool)
    (C : CostModel) (start_key goal_key : GKey) (elapsed : Nat → ℚ)
    (fuel : Nat) : Except PlanError (List Node) :=
  if !isNodeValidM gb occ start_key then Except.error PlanError.invalidEndpoint
  else
    match findValidGoal enable_unreachable (isNodeValidM gb occ) goal_key with
    | none => Except.error PlanError.invalidEndpoint
    | some gk =>
      astarLoop P (isNodeValidM gb occ) pruneOk C start_key gk elapsed fuel 0
        { openl := [startNode C start_key], closed := [],
          best := startNode C start_key }

/-- Node-level search invariant: the key is valid, and the node is either
the start or adjacent to its parent key under the active mode. -/
def InvNode (valid : GKey → Bool) (use6 : Bool) (sk : GKey) (n : Node) : Prop :=
  valid n.key = true ∧ (n.key = sk ∨ adjacentMode use6 n.parent_key n.key = true)

/-- State-level search invariant: every open node, every closed node and
the tracked best node satisfy the node invariant. -/
def InvState (valid : GKey → Bool) (use6 : Bool) (sk : GKey) (st : SState) : Prop :=
  (∀ n ∈ st.openl, InvNode valid use6 sk n) ∧
  (∀ n ∈ st.closed, InvNode valid use6 sk n) ∧
  InvNode valid use6 sk st.best

/-- Concrete cost policy: unit step cost, zero heuristic, zero obstacle
penalty. -/
def trivCost : CostModel := ⟨fun _ _ => 1, fun _ => 0, fun _ => 0⟩

/-- Concrete search region: the unit cube of keys with coordinates 0..1. -/
def cubeBounds : GridBounds := ⟨0, 0, 0, 1, 1, 1⟩

/-- Concrete obstacle-free occupancy map. -/
def freeOcc : GKey → Bool := fun _ => false

/-- Concrete pruning oracle accepting every move. -/
def noPrune : GKey → GKey → Bool := fun _ _ => true

/-- Concrete start key. -/
def keyO : GKey := ⟨0, 0, 0⟩

/-- Concrete goal key. -/
def keyG : GKey := ⟨1, 1, 1⟩

/-- Concrete configuration: 26-connectivity, generous timeout. -/
def cfgRun : SearchConfig := ⟨false, 1000, false⟩

/-- Concrete configuration: zero timeout without the break fallback. -/
def cfgTimeout0 : SearchConfig := ⟨false, 0, false⟩

/-- Concrete configuration: zero timeout with the break fallback. -/
def cfgTimeoutBrk : SearchConfig := ⟨false, 0, true⟩

/-- Node path produced by the concrete search run from (0,0,0) to (1,1,1)
on the free unit cube. -/
def runPath : List Node :=
  [{ key := ⟨0, 0, 0⟩, parent_key := ⟨0, 0, 0⟩ },
   { key := ⟨1, 1, 1⟩, parent_key := ⟨0, 0, 0⟩, g_cost := 1, f_cost := 1,
     n_nodes := 1 }]

/-- Decidable equality of `Except` results, for evaluating the model on
concrete inputs. -/
instance decEqExcept {e a : Type} [DecidableEq e] [DecidableEq a] :
    DecidableEq (Except e a) := fun u v =>
  match u, v with
  | Except.ok x, Except.ok y =>
    if h : x = y then isTrue (by rw [h])
    else isFalse (fun hc => h (by injection hc))
  | Except.ok _, Except.error _ => isFalse (fun hc => Except.noConfusion hc)
  | Except.error _, Except.ok _ => isFalse (fun hc => Except.noConfusion hc)
  | Except.error x, Except.error y =>
    if h : x = y then isTrue (by rw [h])
    else isFalse (fun hc => h (by injection hc))

theorem countKey_eq_zero_iff (q : List Node) (v : Node) :
    countKey q v = 0 ↔ ∀ n ∈ q, nodeEq n v = false := by
  simp [countKey, List.length_eq_zero, List.filter_eq_nil_iff]

theorem popTop_ne_none (x : Node) (xs : List Node) : popTop (x :: xs) ≠ none := by
  cases hx : popTop xs with
  | none => simp [popTop, hx]
  | some p =>
    obtain ⟨m, r⟩ := p
    simp only [popTop, hx]
    split <;> simp

/-- C9: node identity is determined by the key alone — the translated
`operator==` holds exactly when the three key components are pairwise
equal, irrespective of every cost field and of the visited-node counter,
and the `NodeHasher` value depends only on the three key components, so
equal nodes hash equally, for any underlying component hash `h`. -/
theorem c9_identity_is_key_only (h : Int → Nat) (a b : Node) :
    (nodeEq a b = true ↔ a.key = b.key) ∧
    (nodeEq a b = true → nodeHasher h a = nodeHasher h b) := by
  have hiff : nodeEq a b = true ↔ a.key = b.key := by
    simp only [nodeEq, Bool.and_eq_true, beq_iff_eq, GKey.ext_iff]
    tauto
  refine ⟨hiff, fun hk => ?_⟩
  have hkey : a.key = b.key := hiff.mp hk
  simp [nodeHasher, hkey]

/-- Witness for C9: two concrete nodes sharing a key but no cost field are
equal under `nodeEq` and hash identically. -/
theorem c9_identity_witness :
    nodeHasher Int.toNat { key := ⟨2, 3, 4⟩, g_cost := 1, f_cost := 7 } =
      nodeHasher Int.toNat { key := ⟨2, 3, 4⟩, h_cost := 5, n_nodes := 9 } :=
  (c9_identity_is_key_only Int.toNat
    { key := ⟨2, 3, 4⟩, g_cost := 1, f_cost := 7 }
    { key := ⟨2, 3, 4⟩, h_cost := 5, n_nodes := 9 }).2 (by decide)

/-- C10: the translated `Node::operator<` depends only on the key-component
sums together with key distinctness — it holds exactly when the sum of the
left key's components is smaller and the keys are not identical, for any
values of the cost fields — it is irreflexive, and the concrete nodes with
distinct keys (1,0,0) and (0,1,0) of equal component sum are mutually
incomparable yet not equal, so the order is not a total strict order
consistent with key equality. -/
theorem c10_lt_compares_component_sums (a b : Node) :
    (nodeLt a b = true ↔
      a.key.x + a.key.y + a.key.z < b.key.x + b.key.y + b.key.z ∧ a.key ≠ b.key) ∧
    nodeLt a a = false ∧
    ((⟨1, 0, 0⟩ : GKey) ≠ ⟨0, 1, 0⟩ ∧
      nodeLt { key := ⟨1, 0, 0⟩ } { key := ⟨0, 1, 0⟩ } = false ∧
      nodeLt { key := ⟨0, 1, 0⟩ } { key := ⟨1, 0, 0⟩ } = false ∧
      nodeEq { key := ⟨1, 0, 0⟩ } { key := ⟨0, 1, 0⟩ } = false) := by
  refine ⟨?_, ?_, by decide⟩
  · simp only [nodeLt, Bool.and_eq_true, decide_eq_true_eq, Bool.or_eq_true,
      bne_iff_ne, ne_eq, GKey.ext_iff, not_and]
    constructor
    · rintro ⟨hs, hne⟩
      exact ⟨hs, by tauto⟩
    · rintro ⟨hs, hne⟩
      refine ⟨hs, by tauto⟩
  · simp [nodeLt]

/-- Witness for C10 at a concrete strictly ordered pair. -/
theorem c10_lt_witness :
    nodeLt { key := ⟨0, 0, 0⟩, g_cost := 99 } { key := ⟨1, 1, 1⟩ } = true :=
  (c10_lt_compares_component_sums { key := ⟨0, 0, 0⟩, g_cost := 99 }
    { key := ⟨1, 1, 1⟩ }).1.mpr ⟨by decide, by decide⟩

/-- C1: trichotomy of `conditional_remove` — provided the frontier holds at
most one entry per key (the documented frontier invariant), the call
returns 1 and removes exactly the stored entry for the key when that entry
is present with stored cost strictly greater than the candidate; returns
-1 leaving the queue unchanged when the entry is present with stored cost
at most the candidate; and returns 0 leaving the queue unchanged when no
entry with the key is present. -/
theorem c1_conditional_remove_trichotomy (q : List Node) (v : Node) (c : ℚ)
    (huniq : countKey q v ≤ 1) :
    ((conditional_remove q v c).1 = 1 ↔ ∃ n ∈ q, nodeEq n v = true ∧ c < n.f_cost) ∧
    ((conditional_remove q v c).1 = 1 →
      (∀ n ∈ (conditional_remove q v c).2, nodeEq n v = false) ∧
      ∃ n, nodeEq n v = true ∧ q.Perm (n :: (conditional_remove q v c).2)) ∧
    ((conditional_remove q v c).1 = -1 ↔ ∃ n ∈ q, nodeEq n v = true ∧ n.f_cost ≤ c) ∧
    ((conditional_remove q v c).1 = -1 → (conditional_remove q v c).2 = q) ∧
    ((conditional_remove q v c).1 = 0 ↔ ∀ n ∈ q, nodeEq n v = false) ∧
    ((conditional_remove q v c).1 = 0 → (conditional_remove q v c).2 = q) := by
  induction q with
  | nil =>
    simp [conditional_remove]
  | cons n rest ih =>
    by_cases hm : nodeEq n v = true
    · have hrest0 : ∀ m ∈ rest, nodeEq m v = false := by
        have hcnt : countKey (n :: rest) v = countKey rest v + 1 := by
          simp [countKey, hm]
        have : countKey rest v = 0 := by omega
        exact (countKey_eq_zero_iff rest v).mp this
      by_cases hc : c < n.f_cost
      · have hcr : conditional_remove (n :: rest) v c = (1, rest) := by
          simp [conditional_remove, hm, hc]
        rw [hcr]
        dsimp only
        refine ⟨?_, ?_, ?_, ?_, ?_, ?_⟩
        · exact ⟨fun _ => ⟨n, by simp, hm, hc⟩, fun _ => rfl⟩
        · exact fun _ => ⟨hrest0, ⟨n, hm, List.Perm.refl _⟩⟩
        · constructor
          · intro h1; simp at h1
          · rintro ⟨m, hmem, hmeq, hmle⟩
            rcases List.mem_cons.mp hmem with rfl | hmr
            · exact absurd hc (not_lt.mpr hmle)
            · exact absurd hmeq (by simp [hrest0 m hmr])
        · intro h1; simp at h1
        · constructor
          · intro h1; simp at h1
          · intro hall; exact absurd hm (by simp [hall n (by simp)])
        · intro h1; simp at h1
      · have hcr : conditional_remove (n :: rest) v c = (-1, n :: rest) := by
          simp [conditional_remove, hm, hc]
        rw [hcr]
        dsimp only
        refine ⟨?_, ?_, ?_, ?_, ?_, ?_⟩
        · constructor
          · intro h1; simp at h1
          · rintro ⟨m, hmem, hmeq, hmlt⟩
            rcases List.mem_cons.mp hmem with rfl | hmr
            · exact absurd hmlt hc
            · exact absurd hmeq (by simp [hrest0 m hmr])
        · intro h1; simp at h1
        · exact ⟨fun _ => ⟨n, by simp, hm, not_lt.mp hc⟩, fun _ => rfl⟩
        · intro _; rfl
        · constructor
          · intro h1; simp at h1
          · intro hall; exact absurd hm (by simp [hall n (by simp)])
        · intro h1; simp at h1
    · have hmf : nodeEq n v = false := by simpa using hm
      have hcnt : countKey (n :: rest) v = countKey rest v := by
        simp [countKey, hmf]
      have huniq2 : countKey rest v ≤ 1 := by omega
      have hcr : conditional_remove (n :: rest) v c =
          ((conditional_remove rest v c).1, n :: (conditional_remove rest v c).2) := by
        simp [conditional_remove, hmf]
      obtain ⟨i1, i2, i3, i4, i5, i6⟩ := ih huniq2
      rw [hcr]
      dsimp only
      refine ⟨?_, ?_, ?_, ?_, ?_, ?_⟩
      · constructor
        · intro h1
          obtain ⟨m, hmem, hmeq, hmlt⟩ := i1.mp h1
          exact ⟨m, by simp [hmem], hmeq, hmlt⟩
        · rintro ⟨m, hmem, hmeq, hmlt⟩
          rcases List.mem_cons.mp hmem with rfl | hmr
          · exact absurd hmeq (by simp [hmf])
          · exact i1.mpr ⟨m, hmr, hmeq, hmlt⟩
      · intro h1
        obtain ⟨hnone, m, hmeq, hperm⟩ := i2 h1
        refine ⟨?_, ⟨m, hmeq, ?_⟩⟩
        · intro x hx
          rcases List.mem_cons.mp hx with rfl | hxr
          · exact hmf
          · exact hnone x hxr
        · exact (hperm.cons n).trans (List.Perm.swap m n _)
      · constructor
        · intro h1
          obtain ⟨m, hmem, hmeq, hmle⟩ := i3.mp h1
          exact ⟨m, by simp [hmem], hmeq, hmle⟩
        · rintro ⟨m, hmem, hmeq, hmle⟩
          rcases List.mem_cons.mp hmem with rfl | hmr
          · exact absurd hmeq (by simp [hmf])
          · exact i3.mpr ⟨m, hmr, hmeq, hmle⟩
      · intro h1
        rw [i4 h1]
      · constructor
        · intro h1
          intro x hx
          rcases List.mem_cons.mp hx with rfl | hxr
          · exact hmf
          · exact (i5.mp h1) x hxr
        · intro hall
          exact i5.mpr fun x hx => hall x (by simp [hx])
      · intro h1
        rw [i6 h1]

/-- Witness for C1: the scenario of the specification — entry stored with
cost 10: conditional remove with candidate 5 removes it (code 1), with
candidate 20 keeps it (code -1), and on an empty frontier reports absent
(code 0). -/
theorem c1_conditional_remove_witness :
    (conditional_remove [entryK10] probeK 5).1 = 1 ∧
    (conditional_remove [entryK10] probeK 20).1 = -1 ∧
    (conditional_remove [] probeK 7).1 = 0 :=
  ⟨((c1_conditional_remove_trichotomy [entryK10] probeK 5 (by decide)).1).mpr
      ⟨entryK10, by decide, by decide, by decide⟩,
   ((c1_conditional_remove_trichotomy [entryK10] probeK 20 (by decide)).2.2.1).mpr
      ⟨entryK10, by decide, by decide, by decide⟩,
   ((c1_conditional_remove_trichotomy [] probeK 7 (by decide)).2.2.2.2.1).mpr
      (by decide)⟩

/-- C2 counterexample: the queue is ordered by `g_cost` but
`conditional_remove` consults `f_cost` — on a singleton queue holding a
node with `g_cost` 10 and `f_cost` 0, conditional remove with candidate
cost 5 keeps the node (code -1), while consulting the queue-ordering cost
would remove it (code 1); the consulted cost is therefore not the cost
that orders the queue. -/
theorem c2_cost_field_counterexample :
    (conditional_remove [cexGNode] cexGProbe 5).1 = -1 ∧
    (conditional_remove_by_g [cexGNode] cexGProbe 5).1 = 1 ∧
    cexGNode.g_cost = 10 ∧ cexGNode.f_cost = 0 := by
  decide

/-- C2 (amended): pop of the frontier returns a contained node of minimal
`g_cost` and the comparator depends only on `g_cost`, not on the combined
estimate or the heuristic; but the cost consulted by conditional remove is
the stored `f_cost` field, not the `g_cost` that orders the queue. -/
theorem c2_pop_min_by_g_cost :
    (∀ q n rest, popTop q = some (n, rest) →
      n ∈ q ∧ ∀ m ∈ q, n.g_cost ≤ m.g_cost) ∧
    (∀ a b a2 b2 : Node, a.g_cost = a2.g_cost → b.g_cost = b2.g_cost →
      nodeCompare a b = nodeCompare a2 b2) ∧
    (∀ n v c, nodeEq n v = true →
      (conditional_remove [n] v c).1 = if c < n.f_cost then 1 else -1) := by
  refine ⟨?_, ?_, ?_⟩
  · intro q
    induction q with
    | nil => intro n rest h; simp [popTop] at h
    | cons x xs ih =>
      intro n rest h
      cases hx : popTop xs with
      | none =>
        have hxs : xs = [] := by
          cases xs with
          | nil => rfl
          | cons y ys => exact absurd hx (popTop_ne_none y ys)
        subst hxs
        simp only [popTop, Option.some.injEq, Prod.mk.injEq] at h
        obtain ⟨hn, _⟩ := h
        subst hn
        exact ⟨by simp, by simp⟩
      | some p =>
        obtain ⟨m, r2⟩ := p
        have hm := ih m r2 hx
        simp only [popTop, hx] at h
        split at h
        · next hle =>
          simp only [Option.some.injEq, Prod.mk.injEq] at h
          obtain ⟨hn, hr⟩ := h
          subst hn
          refine ⟨by simp, ?_⟩
          intro mm hmm
          rcases List.mem_cons.mp hmm with rfl | hmr
          · exact le_refl _
          · exact le_trans hle (hm.2 mm hmr)
        · next hgt =>
          simp only [Option.some.injEq, Prod.mk.injEq] at h
          obtain ⟨hn, hr⟩ := h
          subst hn
          refine ⟨by simp [hm.1], ?_⟩
          intro mm hmm
          rcases List.mem_cons.mp hmm with rfl | hmr
          · exact le_of_lt (lt_of_not_le hgt)
          · exact hm.2 mm hmr
  · intro a b a2 b2 h1 h2
    simp [nodeCompare, h1, h2]
  · intro n v c h
    by_cases hc : c < n.f_cost <;> simp [conditional_remove, h, hc]

/-- Witness for the amended C2: popping a concrete two-element frontier
returns the node of smaller accumulated cost. -/
theorem c2_pop_min_witness :
    popB ∈ [popA, popB] ∧ popB.g_cost ≤ popA.g_cost :=
  ⟨(c2_pop_min_by_g_cost.1 [popA, popB] popB [popA] (by decide)).1,
   (c2_pop_min_by_g_cost.1 [popA, popB] popB [popA] (by decide)).2 popA (by decide)⟩

theorem natAbs_sub_isgn (d : Int) : (d - isgn d).natAbs = d.natAbs - 1 := by
  unfold isgn
  split
  · omega
  · split <;> omega

theorem chebDist_eq_zero_iff (a b : GKey) : chebDist a b = 0 ↔ a = b := by
  simp only [chebDist, GKey.ext_iff]
  omega

theorem manDist_eq_zero_iff (a b : GKey) : manDist a b = 0 ↔ a = b := by
  simp only [manDist, GKey.ext_iff]
  omega

theorem chebDist_step (a b : GKey) : chebDist (chebStep a b) b = chebDist a b - 1 := by
  have hx : b.x - (chebStep a b).x = b.x - a.x - isgn (b.x - a.x) := by
    simp [chebStep]; ring
  have hy : b.y - (chebStep a b).y = b.y - a.y - isgn (b.y - a.y) := by
    simp [chebStep]; ring
  have hz : b.z - (chebStep a b).z = b.z - a.z - isgn (b.z - a.z) := by
    simp [chebStep]; ring
  simp only [chebDist]
  rw [hx, hy, hz, natAbs_sub_isgn, natAbs_sub_isgn, natAbs_sub_isgn]
  omega

theorem manDist_step (a b : GKey) : manDist (manStep a b) b = manDist a b - 1 := by
  unfold manStep
  split_ifs with h1 h2
  · simp only [manDist]
    have hx : b.x - (a.x + isgn (b.x - a.x)) = b.x - a.x - isgn (b.x - a.x) := by ring
    rw [hx, natAbs_sub_isgn]
    omega
  · simp only [manDist]
    have hy : b.y - (a.y + isgn (b.y - a.y)) = b.y - a.y - isgn (b.y - a.y) := by ring
    rw [hy, natAbs_sub_isgn]
    omega
  · simp only [manDist]
    have hz : b.z - (a.z + isgn (b.z - a.z)) = b.z - a.z - isgn (b.z - a.z) := by ring
    rw [hz, natAbs_sub_isgn]
    omega

theorem adj26_chebStep (a b : GKey) : adj26 a (chebStep a b) = true := by
  simp only [adj26, chebStep, Bool.and_eq_true, decide_eq_true_eq]
  unfold isgn
  refine ⟨⟨?_, ?_⟩, ?_⟩ <;> (split_ifs <;> omega)

theorem adj6_manStep (a b : GKey) (h : a ≠ b) : adj6 a (manStep a b) = true := by
  have hne : ¬(a.x = b.x ∧ a.y = b.y ∧ a.z = b.z) := by
    intro hc
    exact h (by ext <;> tauto)
  simp only [adj6, manStep, decide_eq_true_eq]
  split_ifs with h1 h2
  · left
    refine ⟨?_, rfl, rfl⟩
    show (a.x + isgn (b.x - a.x) - a.x).natAbs = 1
    unfold isgn
    split_ifs <;> omega
  · right; left
    refine ⟨rfl, ?_, rfl⟩
    show (a.y + isgn (b.y - a.y) - a.y).natAbs = 1
    unfold isgn
    split_ifs <;> omega
  · right; right
    refine ⟨rfl, rfl, ?_⟩
    show (a.z + isgn (b.z - a.z) - a.z).natAbs = 1
    unfold isgn
    split_ifs <;> omega

theorem chainAux_length (s : GKey → GKey → GKey) :
    ∀ (n : Nat) (a b : GKey), (chainAux s n a b).length = n := by
  intro n
  induction n with
  | zero => intro a b; simp [chainAux]
  | succ k ih => intro a b; simp [chainAux, ih]

theorem chainAux_getLast (s : GKey → GKey → GKey) (d : GKey → GKey → Nat)
    (hdec : ∀ a b, d (s a b) b = d a b - 1)
    (hzero : ∀ a b, d a b = 0 → a = b) :
    ∀ (n : Nat) (a b : GKey), d a b = n →
      (a :: chainAux s n a b).getLast? = some b := by
  intro n
  induction n with
  | zero => intro a b h; simp [chainAux, hzero a b h]
  | succ k ih =>
    intro a b h
    have h2 : d (s a b) b = k := by rw [hdec, h]; omega
    have h3 := ih (s a b) b h2
    simp only [chainAux]
    rw [List.getLast?_cons_cons]
    exact h3

theorem chainAux_chain (s : GKey → GKey → GKey) (d : GKey → GKey → Nat)
    (adjb : GKey → GKey → Bool)
    (hdec : ∀ a b, d (s a b) b = d a b - 1)
    (hadj : ∀ a b, d a b ≠ 0 → adjb a (s a b) = true) :
    ∀ (n : Nat) (a b : GKey), d a b = n →
      List.Chain' (fun u v => adjb u v = true) (a :: chainAux s n a b) := by
  intro n
  induction n with
  | zero => intro a b _; simp [chainAux]
  | succ k ih =>
    intro a b h
    simp only [chainAux]
    exact List.chain'_cons.mpr
      ⟨hadj a b (by omega), ih (s a b) b (by rw [hdec, h]; omega)⟩

theorem chainMode_length (use6 : Bool) (a b : GKey) :
    (chainMode use6 a b).length = modeDist use6 a b := by
  cases use6 <;> simp [chainMode, modeDist, chainAux_length]

theorem chainMode_getLast (use6 : Bool) (a b : GKey) :
    (a :: chainMode use6 a b).getLast? = some b := by
  cases use6
  · exact chainAux_getLast chebStep chebDist chebDist_step
      (fun a b h => (chebDist_eq_zero_iff a b).mp h) (chebDist a b) a b rfl
  · exact chainAux_getLast manStep manDist manDist_step
      (fun a b h => (manDist_eq_zero_iff a b).mp h) (manDist a b) a b rfl

theorem chainMode_chain (use6 : Bool) (a b : GKey) :
    List.Chain' (fun u v => adjacentMode use6 u v = true) (a :: chainMode use6 a b) := by
  cases use6
  · exact chainAux_chain chebStep chebDist adj26 chebDist_step
      (fun a b _ => adj26_chebStep a b) (chebDist a b) a b rfl
  · exact chainAux_chain manStep manDist adj6 manDist_step
      (fun a b h => adj6_manStep a b fun hab =>
        h (by simp [manDist_eq_zero_iff, hab])) (manDist a b) a b rfl

theorem chebDist_comp_le_x (a b : GKey) : (b.x - a.x).natAbs ≤ chebDist a b := by
  simp only [chebDist]
  omega

theorem chebDist_comp_le_y (a b : GKey) : (b.y - a.y).natAbs ≤ chebDist a b := by
  simp only [chebDist]
  omega

theorem chebDist_comp_le_z (a b : GKey) : (b.z - a.z).natAbs ≤ chebDist a b := by
  simp only [chebDist]
  omega

theorem chebDist_triangle (a b c : GKey) :
    chebDist a c ≤ chebDist a b + chebDist b c := by
  have hx : (c.x - a.x).natAbs ≤ (b.x - a.x).natAbs + (c.x - b.x).natAbs := by omega
  have hy : (c.y - a.y).natAbs ≤ (b.y - a.y).natAbs + (c.y - b.y).natAbs := by omega
  have hz : (c.z - a.z).natAbs ≤ (b.z - a.z).natAbs + (c.z - b.z).natAbs := by omega
  have bx := Nat.add_le_add (chebDist_comp_le_x a b) (chebDist_comp_le_x b c)
  have by2 := Nat.add_le_add (chebDist_comp_le_y a b) (chebDist_comp_le_y b c)
  have bz := Nat.add_le_add (chebDist_comp_le_z a b) (chebDist_comp_le_z b c)
  show max (max (c.x - a.x).natAbs (c.y - a.y).natAbs) (c.z - a.z).natAbs ≤ _
  refine max_le (max_le ?_ ?_) ?_
  · exact le_trans hx bx
  · exact le_trans hy by2
  · exact le_trans hz bz

theorem manDist_triangle (a b c : GKey) :
    manDist a c ≤ manDist a b + manDist b c := by
  simp only [manDist]
  omega

theorem modeDist_triangle (use6 : Bool) (a b c : GKey) :
    modeDist use6 a c ≤ modeDist use6 a b + modeDist use6 b c := by
  cases use6
  · exact chebDist_triangle a b c
  · exact manDist_triangle a b c

theorem modeDist_self (use6 : Bool) (a : GKey) : modeDist use6 a a = 0 := by
  cases use6
  · show chebDist a a = 0
    simp only [chebDist]
    omega
  · show manDist a a = 0
    simp only [manDist]
    omega

theorem adjacentMode_dist_le (use6 : Bool) {a b : GKey}
    (h : adjacentMode use6 a b = true) : modeDist use6 a b ≤ 1 := by
  cases use6
  · have h2 : adj26 a b = true := h
    simp only [adj26, Bool.and_eq_true, decide_eq_true_eq] at h2
    show chebDist a b ≤ 1
    simp only [chebDist]
    omega
  · have h2 : adj6 a b = true := h
    simp only [adj6, decide_eq_true_eq] at h2
    show manDist a b ≤ 1
    simp only [manDist]
    omega

theorem straightenFrom_conn (los : GKey → GKey → Bool) (use6 : Bool)
    (a : GKey) (l : List GKey) :
    List.Chain' (fun u v => adjacentMode use6 u v = true)
      (a :: straightenFrom los use6 a l) := by
  induction a, l using straightenFrom.induct los use6 with
  | case1 a => simp [straightenFrom]
  | case2 a k =>
    rw [straightenFrom]
    exact chainMode_chain use6 a k
  | case3 a k1 k2 rest h ih =>
    rw [straightenFrom]
    simp only [h, if_true]
    exact ih
  | case4 a k1 k2 rest h ih =>
    rw [straightenFrom]
    simp only [h, Bool.false_eq_true, if_false]
    obtain ⟨hhead, htail⟩ := List.chain'_cons'.mp ih
    have hlink : ∀ x ∈ (a :: chainMode use6 a k1).getLast?,
        ∀ y ∈ (straightenFrom los use6 k1 (k2 :: rest)).head?,
        adjacentMode use6 x y = true := by
      intro x hx y hy
      rw [chainMode_getLast use6 a k1] at hx
      have hx2 : k1 = x := by simpa using hx
      subst hx2
      exact hhead y hy
    have happ := List.Chain'.append (chainMode_chain use6 a k1) htail hlink
    simpa using happ

theorem straightenFrom_length (los : GKey → GKey → Bool) (use6 : Bool)
    (a : GKey) (l : List GKey) :
    List.Chain' (fun u v => adjacentMode use6 u v = true) l →
    (straightenFrom los use6 a l).length ≤
      modeDist use6 a (l.headD a) + (l.length - 1) := by
  induction a, l using straightenFrom.induct los use6 with
  | case1 a =>
    intro _
    simp [straightenFrom, modeDist_self]
  | case2 a k =>
    intro _
    rw [straightenFrom]
    simp [chainMode_length]
  | case3 a k1 k2 rest h ih =>
    intro hc
    have h12 : adjacentMode use6 k1 k2 = true := (List.chain'_cons.mp hc).1
    have hc2 := (List.chain'_cons.mp hc).2
    have hih := ih hc2
    rw [straightenFrom]
    simp only [h, if_true]
    simp only [List.headD_cons, List.length_cons] at hih ⊢
    have htri := modeDist_triangle use6 a k1 k2
    have hd := adjacentMode_dist_le use6 h12
    omega
  | case4 a k1 k2 rest h ih =>
    intro hc
    have h12 : adjacentMode use6 k1 k2 = true := (List.chain'_cons.mp hc).1
    have hc2 := (List.chain'_cons.mp hc).2
    have hih := ih hc2
    rw [straightenFrom]
    simp only [h, Bool.false_eq_true, if_false, List.length_append, chainMode_length]
    simp only [List.headD_cons, List.length_cons] at hih ⊢
    have hd := adjacentMode_dist_le use6 h12
    omega

theorem getStraightenKeyPathModel_conn (los : GKey → GKey → Bool) (use6 : Bool)
    (p : List GKey) :
    List.Chain' (fun u v => adjacentMode use6 u v = true)
      (getStraightenKeyPathModel los use6 p) := by
  cases p with
  | nil => simp [getStraightenKeyPathModel]
  | cons a rest => exact straightenFrom_conn los use6 a rest

theorem getStraightenKeyPathModel_length (los : GKey → GKey → Bool) (use6 : Bool)
    (p : List GKey)
    (hc : List.Chain' (fun u v => adjacentMode use6 u v = true) p) :
    (getStraightenKeyPathModel los use6 p).length ≤ p.length := by
  cases p with
  | nil => simp [getStraightenKeyPathModel]
  | cons a rest =>
    have hrest := (List.chain'_cons'.mp hc).2
    have hlen := straightenFrom_length los use6 a rest hrest
    simp only [getStraightenKeyPathModel, List.length_cons]
    cases rest with
    | nil =>
      simp [straightenFrom]
    | cons b rs =>
      have hab : adjacentMode use6 a b = true :=
        (List.chain'_cons'.mp hc).1 b rfl
      have hd := adjacentMode_dist_le use6 hab
      simp only [List.headD_cons, List.length_cons] at hlen ⊢
      omega

theorem getFilteredPlanModel_head (use6 : Bool) (l : List GKey) :
    (getFilteredPlanModel use6 l).head? = l.head? := by
  induction l using getFilteredPlanModel.induct use6 with
  | case1 => simp [getFilteredPlanModel]
  | case2 a => simp [getFilteredPlanModel]
  | case3 a b => simp [getFilteredPlanModel]
  | case4 a b c2 rest h ih =>
    rw [getFilteredPlanModel]
    simp only [h, if_true]
    rw [ih]
    simp
  | case5 a b c2 rest h ih =>
    rw [getFilteredPlanModel]
    simp only [h, Bool.false_eq_true, if_false]
    simp

theorem getFilteredPlanModel_length (use6 : Bool) (l : List GKey) :
    (getFilteredPlanModel use6 l).length ≤ l.length := by
  induction l using getFilteredPlanModel.induct use6 with
  | case1 => simp [getFilteredPlanModel]
  | case2 a => simp [getFilteredPlanModel]
  | case3 a b => simp [getFilteredPlanModel]
  | case4 a b c2 rest h ih =>
    rw [getFilteredPlanModel]
    simp only [h, if_true]
    simp only [List.length_cons] at ih ⊢
    omega
  | case5 a b c2 rest h ih =>
    rw [getFilteredPlanModel]
    simp only [h, Bool.false_eq_true, if_false]
    simp only [List.length_cons] at ih ⊢
    omega

theorem getFilteredPlanModel_conn (use6 : Bool) (l : List GKey) :
    List.Chain' (fun u v => adjacentMode use6 u v = true) l →
    List.Chain' (fun u v => adjacentMode use6 u v = true)
      (getFilteredPlanModel use6 l) := by
  induction l using getFilteredPlanModel.induct use6 with
  | case1 => intro _; simp [getFilteredPlanModel]
  | case2 a => intro _; simp [getFilteredPlanModel]
  | case3 a b => intro hc; simpa [getFilteredPlanModel] using hc
  | case4 a b c2 rest h ih =>
    intro hc
    rw [getFilteredPlanModel]
    simp only [h, if_true]
    apply ih
    exact List.chain'_cons.mpr ⟨h, (List.chain'_cons.mp (List.chain'_cons.mp hc).2).2⟩
  | case5 a b c2 rest h ih =>
    intro hc
    rw [getFilteredPlanModel]
    simp only [h, Bool.false_eq_true, if_false]
    have hbc := (List.chain'_cons.mp hc).2
    refine List.chain'_cons'.mpr ⟨?_, ih hbc⟩
    intro y hy
    rw [getFilteredPlanModel_head use6 (b :: c2 :: rest)] at hy
    have hy2 : b = y := by simpa using hy
    subst hy2
    exact (List.chain'_cons.mp hc).1

theorem pairwiseAdjacent_iff_chain (use6 : Bool) (l : List GKey) :
    pairwiseAdjacent use6 l = true ↔
      List.Chain' (fun u v => adjacentMode use6 u v = true) l := by
  induction l using pairwiseAdjacent.induct use6 with
  | case1 => simp [pairwiseAdjacent]
  | case2 a => simp [pairwiseAdjacent]
  | case3 a b rest ih =>
    rw [pairwiseAdjacent, Bool.and_eq_true, ih, List.chain'_cons]

/-- C4: the simplification pipeline — sliding-window filtering, then
straightening with synthesized connector chains, iterated to a fixed point
or a pass ceiling — never increases the waypoint count of a fully
connected input path, and its output is again fully connected under the
active connectivity mode. -/
theorem c4_simplifier_shrinks_and_stays_connected (los : GKey → GKey → Bool)
    (use6 : Bool) (fuel : Nat) (p : List GKey)
    (hconn : List.Chain' (fun u v => adjacentMode use6 u v = true) p) :
    (getSmoothPathModel los use6 fuel p).length ≤ p.length ∧
    List.Chain' (fun u v => adjacentMode use6 u v = true)
      (getSmoothPathModel los use6 fuel p) := by
  induction fuel generalizing p with
  | zero => exact ⟨le_refl _, hconn⟩
  | succ k ih =>
    rw [getSmoothPathModel]
    split
    · exact ⟨le_refl _, hconn⟩
    · have hfc := getFilteredPlanModel_conn use6 p hconn
      have hsc := getStraightenKeyPathModel_conn los use6 (getFilteredPlanModel use6 p)
      have hlen : (getStraightenKeyPathModel los use6 (getFilteredPlanModel use6 p)).length
          ≤ p.length :=
        le_trans (getStraightenKeyPathModel_length los use6 _ hfc)
          (getFilteredPlanModel_length use6 p)
      obtain ⟨l1, c1⟩ := ih _ hsc
      exact ⟨le_trans l1 hlen, c1⟩

/-- Witness for C4 on a concrete connected three-waypoint path under
26-connectivity with a permissive line-of-sight oracle. -/
theorem c4_simplifier_witness :
    (getSmoothPathModel (fun _ _ => true) false 2
        [⟨0, 0, 0⟩, ⟨1, 0, 0⟩, ⟨2, 0, 0⟩]).length ≤ 3 ∧
    List.Chain' (fun u v => adjacentMode false u v = true)
      (getSmoothPathModel (fun _ _ => true) false 2
        [⟨0, 0, 0⟩, ⟨1, 0, 0⟩, ⟨2, 0, 0⟩]) :=
  c4_simplifier_shrinks_and_stays_connected (fun _ _ => true) false 2
    [⟨0, 0, 0⟩, ⟨1, 0, 0⟩, ⟨2, 0, 0⟩]
    ((pairwiseAdjacent_iff_chain false [⟨0, 0, 0⟩, ⟨1, 0, 0⟩, ⟨2, 0, 0⟩]).mp (by decide))

theorem safePassAux_id (dist : GKey → ℚ) (valid : GKey → Bool)
    (safe_dist zTol : ℚ) (use6 fix_goal : Bool) :
    ∀ (l : List GKey) (prev : GKey), (∀ k ∈ l, safe_dist ≤ dist k) →
      safePassAux dist valid safe_dist zTol use6 fix_goal prev l = l := by
  intro l
  induction l with
  | nil => intro prev _; rfl
  | cons k rest ih =>
    intro prev hall
    rw [safePassAux]
    rw [if_pos (hall k (by simp))]
    rw [ih k (fun x hx => hall x (by simp [hx]))]

/-- C7: the safety inflation pass is the identity on an already-safe path —
when every waypoint lies at distance at least `safe_dist` from the nearest
obstacle, `getSafePath` returns the path unchanged, for any iteration
budget, neighbor-validity oracle, z tolerance, connectivity mode and goal
pinning. -/
theorem c7_safe_path_idempotent_on_safe (dist : GKey → ℚ) (valid : GKey → Bool)
    (safe_dist zTol : ℚ) (use6 fix_goal : Bool) (max_iteration : Nat)
    (p : List GKey) (hsafe : ∀ k ∈ p, safe_dist ≤ dist k) :
    getSafePathModel dist valid safe_dist zTol use6 fix_goal max_iteration p = p := by
  have hpass : safePass dist valid safe_dist zTol use6 fix_goal p = p := by
    cases p with
    | nil => rfl
    | cons a rest =>
      exact safePassAux_id dist valid safe_dist zTol use6 fix_goal (a :: rest) a hsafe
  cases max_iteration with
  | zero => rfl
  | succ it =>
    rw [getSafePathModel, if_pos hpass]

/-- Witness for C7: a concrete two-waypoint path whose waypoints all lie at
distance 5 from the nearest obstacle is returned unchanged with safe
distance 1. -/
theorem c7_safe_path_witness :
    getSafePathModel (fun _ => 5) (fun _ => true) 1 2 false false 3
      [⟨0, 0, 0⟩, ⟨1, 0, 0⟩] = [⟨0, 0, 0⟩, ⟨1, 0, 0⟩] :=
  c7_safe_path_idempotent_on_safe (fun _ => 5) (fun _ => true) 1 2 false false 3
    [⟨0, 0, 0⟩, ⟨1, 0, 0⟩] (by decide)

theorem popTop_elems :
    ∀ (q : List Node) (n : Node) (rest : List Node),
      popTop q = some (n, rest) → n ∈ q ∧ ∀ m ∈ rest, m ∈ q := by
  intro q
  induction q with
  | nil => intro n rest h; simp [popTop] at h
  | cons x xs ih =>
    intro n rest h
    cases hx : popTop xs with
    | none =>
      have hxs : xs = [] := by
        cases xs with
        | nil => rfl
        | cons y ys => exact absurd hx (popTop_ne_none y ys)
      subst hxs
      simp only [popTop, Option.some.injEq, Prod.mk.injEq] at h
      obtain ⟨hn, hr⟩ := h
      subst hn; subst hr
      exact ⟨by simp, by simp⟩
    | some p =>
      obtain ⟨m, r2⟩ := p
      have hmr := ih m r2 hx
      simp only [popTop, hx] at h
      split at h
      · simp only [Option.some.injEq, Prod.mk.injEq] at h
        obtain ⟨hn, hr⟩ := h
        subst hn; subst hr
        exact ⟨by simp, fun m2 hm2 => by simp [hm2]⟩
      · simp only [Option.some.injEq, Prod.mk.injEq] at h
        obtain ⟨hn, hr⟩ := h
        subst hn; subst hr
        refine ⟨by simp [hmr.1], ?_⟩
        intro m2 hm2
        rcases List.mem_cons.mp hm2 with rfl | hm2r
        · simp
        · simp [hmr.2 m2 hm2r]

theorem conditional_remove_subset :
    ∀ (q : List Node) (v : Node) (c : ℚ) (m : Node),
      m ∈ (conditional_remove q v c).2 → m ∈ q := by
  intro q
  induction q with
  | nil => intro v c m h; simp [conditional_remove] at h
  | cons n rest ih =>
    intro v c m h
    by_cases hm : nodeEq n v = true
    · by_cases hc : c < n.f_cost
      · simp only [conditional_remove, hm, if_true, hc] at h
        exact List.mem_cons_of_mem n h
      · simp only [conditional_remove, hm, if_true, hc, if_false] at h
        exact h
    · have hmf : nodeEq n v = false := by simpa using hm
      simp only [conditional_remove, hmf, Bool.false_eq_true, if_false] at h
      rcases List.mem_cons.mp h with rfl | hr
      · simp
      · exact List.mem_cons_of_mem n (ih v c m hr)

theorem pushOpen_mem (openl : List Node) (n m : Node)
    (h : m ∈ pushOpen openl n) : m = n ∨ m ∈ openl := by
  unfold pushOpen at h
  split at h
  · exact Or.inr (conditional_remove_subset openl n n.f_cost m h)
  · rcases List.mem_cons.mp h with rfl | hr
    · exact Or.inl rfl
    · exact Or.inr (conditional_remove_subset openl n n.f_cost m hr)

theorem foldl_pushOpen_mem :
    ∀ (succs : List Node) (acc : List Node) (m : Node),
      m ∈ succs.foldl pushOpen acc → m ∈ succs ∨ m ∈ acc := by
  intro succs
  induction succs with
  | nil => intro acc m h; exact Or.inr h
  | cons s ss ih =>
    intro acc m h
    simp only [List.foldl_cons] at h
    rcases ih (pushOpen acc s) m h with hs | ha
    · exact Or.inl (List.mem_cons_of_mem s hs)
    · rcases pushOpen_mem acc s m ha with rfl | hr
      · exact Or.inl (by simp)
      · exact Or.inr hr

theorem offsets26_adjacent (k : GKey) :
    ∀ o ∈ offsets26, adj26 k (keyShift k o) = true := by
  intro o ho
  fin_cases ho <;>
    (simp only [adj26, keyShift, Bool.and_eq_true, decide_eq_true_eq]
     refine ⟨⟨?_, ?_⟩, ?_⟩ <;> omega)

theorem offsets6_adjacent (k : GKey) :
    ∀ o ∈ offsets6, adj6 k (keyShift k o) = true := by
  intro o ho
  fin_cases ho <;>
    (simp only [adj6, keyShift, decide_eq_true_eq]; omega)

theorem getSuccessors_spec (P : SearchConfig) (valid : GKey → Bool)
    (pruneOk : GKey → GKey → Bool) (C : CostModel) (cur : Node) :
    ∀ s ∈ getSuccessors P valid pruneOk C cur,
      valid s.key = true ∧ adjacentMode P.use6 s.parent_key s.key = true := by
  intro s hs
  simp only [getSuccessors, List.mem_map, List.mem_filter] at hs
  obtain ⟨k, ⟨hkmem, hkcond⟩, hmk⟩ := hs
  have hvalid : valid k = true := by
    simp only [Bool.and_eq_true] at hkcond
    exact hkcond.1
  have hkey : s.key = k := by rw [← hmk]; rfl
  have hpar : s.parent_key = cur.key := by rw [← hmk]; rfl
  refine ⟨by rw [hkey]; exact hvalid, ?_⟩
  rw [hkey, hpar]
  simp only [neighborKeys] at hkmem
  cases hu : P.use6
  · rw [hu] at hkmem
    simp only [Bool.false_eq_true, if_false, List.mem_map] at hkmem
    obtain ⟨o, ho, hko⟩ := hkmem
    subst hko
    show adj26 cur.key (keyShift cur.key o) = true
    exact offsets26_adjacent cur.key o ho
  · rw [hu] at hkmem
    simp only [if_true, List.mem_map] at hkmem
    obtain ⟨o, ho, hko⟩ := hkmem
    subst hko
    show adj6 cur.key (keyShift cur.key o) = true
    exact offsets6_adjacent cur.key o ho

theorem reconstructPath_spec (valid : GKey → Bool) (use6 : Bool) (sk : GKey)
    (closed : List Node) (hc : ∀ m ∈ closed, InvNode valid use6 sk m) :
    ∀ (fuel : Nat) (n : Node), InvNode valid use6 sk n →
      (∀ m ∈ reconstructPath closed sk fuel n, InvNode valid use6 sk m) ∧
      (reconstructPath closed sk fuel n).getLast? = some n ∧
      List.Chain' (fun u v => adjacentMode use6 u.key v.key = true)
        (reconstructPath closed sk fuel n) := by
  intro fuel
  induction fuel with
  | zero =>
    intro n hn
    refine ⟨?_, by simp [reconstructPath], by simp [reconstructPath]⟩
    intro m hm
    simp only [reconstructPath, List.mem_singleton] at hm
    subst hm; exact hn
  | succ f ih =>
    intro n hn
    rw [reconstructPath]
    split
    · refine ⟨?_, by simp, by simp⟩
      intro m hm
      simp only [List.mem_singleton] at hm
      subst hm; exact hn
    · next hnsk =>
      cases hlook : lookupClosed closed n.parent_key with
      | none =>
        refine ⟨?_, by simp, by simp⟩
        intro m hm
        simp only [List.mem_singleton] at hm
        subst hm; exact hn
      | some p =>
        have hpmem : p ∈ closed := List.mem_of_find?_eq_some hlook
        have hpkey : p.key = n.parent_key := by
          have := List.find?_some hlook
          simpa using this
        obtain ⟨ihmem, ihlast, ihchain⟩ := ih p (hc p hpmem)
        refine ⟨?_, ?_, ?_⟩
        · intro m hm
          rcases List.mem_append.mp hm with hl | hr
          · exact ihmem m hl
          · simp only [List.mem_singleton] at hr
            subst hr; exact hn
        · simp
        · apply List.Chain'.append ihchain (List.chain'_singleton n)
          intro x hx y hy
          rw [ihlast] at hx
          have hx2 : p = x := by simpa using hx
          have hy2 : n = y := by simpa using hy
          subst hx2; subst hy2
          rw [hpkey]
          rcases hn.2 with hsk | hadj
          · exact absurd hsk hnsk
          · exact hadj

theorem astarLoop_spec (P : SearchConfig) (valid : GKey → Bool)
    (pruneOk : GKey → GKey → Bool) (C : CostModel) (sk gk : GKey)
    (elapsed : Nat → ℚ) :
    ∀ (fuel iter : Nat) (st : SState), InvState valid P.use6 sk st →
      ∀ p, astarLoop P valid pruneOk C sk gk elapsed fuel iter st = Except.ok p →
        (∀ m ∈ p, valid m.key = true) ∧
        List.Chain' (fun u v => adjacentMode P.use6 u.key v.key = true) p ∧
        p ≠ [] := by
  intro fuel
  induction fuel with
  | zero =>
    intro iter st _ p hok
    rw [astarLoop] at hok
    exact Except.noConfusion hok
  | succ f ih =>
    intro iter st hInv p hok
    obtain ⟨hopen, hclosed, hbest⟩ := hInv
    rw [astarLoop] at hok
    by_cases ht : P.planning_timeout < elapsed iter
    · rw [if_pos ht] at hok
      by_cases hb : P.break_at_timeout = true
      · rw [if_pos hb] at hok
        simp only [Except.ok.injEq] at hok
        subst hok
        obtain ⟨hmem, hlast, hchain⟩ :=
          reconstructPath_spec valid P.use6 sk st.closed hclosed
            (st.closed.length + 1) st.best hbest
        refine ⟨fun m hm => (hmem m hm).1, hchain, ?_⟩
        intro hnil
        rw [hnil] at hlast
        exact Option.noConfusion hlast
      · rw [if_neg hb] at hok
        exact Except.noConfusion hok
    · rw [if_neg ht] at hok
      cases hpop : popTop st.openl with
      | none =>
        simp only [hpop] at hok
        exact Except.noConfusion hok
      | some pr =>
        obtain ⟨n, rest⟩ := pr
        simp only [hpop] at hok
        have hnmem := (popTop_elems st.openl n rest hpop).1
        have hrest := (popTop_elems st.openl n rest hpop).2
        have hnInv : InvNode valid P.use6 sk n := hopen n hnmem
        by_cases hgoal : n.key = gk
        · rw [if_pos hgoal] at hok
          simp only [Except.ok.injEq] at hok
          subst hok
          have hc2 : ∀ m ∈ n :: st.closed, InvNode valid P.use6 sk m := by
            intro m hm
            rcases List.mem_cons.mp hm with rfl | hr
            · exact hnInv
            · exact hclosed m hr
          obtain ⟨hmem, hlast, hchain⟩ :=
            reconstructPath_spec valid P.use6 sk (n :: st.closed) hc2
              (st.closed.length + 1) n hnInv
          refine ⟨fun m hm => (hmem m hm).1, hchain, ?_⟩
          intro hnil
          rw [hnil] at hlast
          exact Option.noConfusion hlast
        · rw [if_neg hgoal] at hok
          by_cases hstale : closedBetter st.closed n = true
          · rw [if_pos hstale] at hok
            refine ih (iter + 1)
              { openl := rest, closed := st.closed, best := st.best }
              ⟨?_, hclosed, hbest⟩ p hok
            intro m hm
            exact hopen m (hrest m hm)
          · rw [if_neg hstale] at hok
            refine ih (iter + 1)
              { openl := List.foldl pushOpen rest
                  (List.filter (fun s => !closedBetter (n :: st.closed) s)
                    (getSuccessors P valid pruneOk C n)),
                closed := n :: st.closed, best := updateBest st.best n }
              ⟨?_, ?_, ?_⟩ p hok
            · intro m hm
              rcases foldl_pushOpen_mem _ rest m hm with hs | hr
              · have hs2 : m ∈ getSuccessors P valid pruneOk C n :=
                  List.mem_of_mem_filter hs
                obtain ⟨hv, hadj⟩ := getSuccessors_spec P valid pruneOk C n m hs2
                exact ⟨hv, Or.inr hadj⟩
              · exact hopen m (hrest m hr)
            · intro m hm
              rcases List.mem_cons.mp hm with rfl | hr
              · exact hnInv
              · exact hclosed m hr
            · unfold updateBest
              split
              · exact hnInv
              · exact hbest

theorem getNodePathModel_ok_spec (P : SearchConfig) (enable : Bool)
    (gb : GridBounds) (occ : GKey → Bool) (pruneOk : GKey → GKey → Bool)
    (C : CostModel) (sk gk : GKey) (elapsed : Nat → ℚ) (fuel : Nat)
    (p : List Node)
    (hok : getNodePathModel P enable gb occ pruneOk C sk gk elapsed fuel =
      Except.ok p) :
    (∀ m ∈ p, isNodeValidM gb occ m.key = true) ∧
    List.Chain' (fun u v => adjacentMode P.use6 u.key v.key = true) p ∧
    p ≠ [] := by
  unfold getNodePathModel at hok
  by_cases hv : (!isNodeValidM gb occ sk) = true
  · rw [if_pos hv] at hok
    exact Except.noConfusion hok
  · rw [if_neg hv] at hok
    have hvs : isNodeValidM gb occ sk = true := by
      revert hv
      cases isNodeValidM gb occ sk <;> simp
    cases hg : findValidGoal enable (isNodeValidM gb occ) gk with
    | none =>
      simp only [hg] at hok
      exact Except.noConfusion hok
    | some g2 =>
      simp only [hg] at hok
      refine astarLoop_spec P (isNodeValidM gb occ) pruneOk C sk g2 elapsed
        fuel 0 _ ⟨?_, ?_, ?_⟩ p hok
      · intro m hm
        simp only [List.mem_singleton] at hm
        subst hm
        exact ⟨hvs, Or.inl rfl⟩
      · intro m hm
        simp at hm
      · exact ⟨hvs, Or.inl rfl⟩

/-- C5: every path accepted by the planner model is fully connected — each
consecutive node pair is adjacent under the active connectivity mode,
where 26-connected adjacency means every key coordinate differs by at most
1 and 6-connected adjacency means exactly one coordinate differs, by
exactly 1. -/
theorem c5_accepted_paths_adjacent (P : SearchConfig) (enable : Bool)
    (gb : GridBounds) (occ : GKey → Bool) (pruneOk : GKey → GKey → Bool)
    (C : CostModel) (sk gk : GKey) (elapsed : Nat → ℚ) (fuel : Nat)
    (p : List Node)
    (hok : getNodePathModel P enable gb occ pruneOk C sk gk elapsed fuel =
      Except.ok p) :
    List.Chain' (fun u v => adjacentMode P.use6 u.key v.key = true) p :=
  (getNodePathModel_ok_spec P enable gb occ pruneOk C sk gk elapsed fuel p hok).2.1

/-- Witness for C5: the concrete unit-cube run yields a path whose
consecutive keys are 26-adjacent. -/
theorem c5_accepted_paths_witness :
    List.Chain' (fun u v => adjacentMode cfgRun.use6 u.key v.key = true) runPath :=
  c5_accepted_paths_adjacent cfgRun false cubeBounds freeOcc noPrune trivCost
    keyO keyG (fun _ => 0) 30 runPath (by with_unfolding_all rfl)

/-- C6: no key of a path accepted by the planner model is occupied, and
every key lies inside the grid bounds computed for the search. -/
theorem c6_paths_unoccupied_in_bounds (P : SearchConfig) (enable : Bool)
    (gb : GridBounds) (occ : GKey → Bool) (pruneOk : GKey → GKey → Bool)
    (C : CostModel) (sk gk : GKey) (elapsed : Nat → ℚ) (fuel : Nat)
    (p : List Node)
    (hok : getNodePathModel P enable gb occ pruneOk C sk gk elapsed fuel =
      Except.ok p) :
    ∀ m ∈ p, inBounds gb m.key = true ∧ occ m.key = false := by
  intro m hm
  have hv :=
    (getNodePathModel_ok_spec P enable gb occ pruneOk C sk gk elapsed fuel p hok).1 m hm
  simp only [isNodeValidM, Bool.and_eq_true] at hv
  exact ⟨hv.1, by simpa using hv.2⟩

/-- Witness for C6: the goal node of the concrete run's path is unoccupied
and in bounds. -/
theorem c6_paths_witness :
    inBounds cubeBounds (⟨1, 1, 1⟩ : GKey) = true ∧
      freeOcc (⟨1, 1, 1⟩ : GKey) = false :=
  c6_paths_unoccupied_in_bounds cfgRun false cubeBounds freeOcc noPrune trivCost
    keyO keyG (fun _ => 0) 30 runPath (by with_unfolding_all rfl)
    { key := ⟨1, 1, 1⟩, parent_key := ⟨0, 0, 0⟩, g_cost := 1, f_cost := 1,
      n_nodes := 1 }
    (by decide)

/-- C3: the planner model surfaces every failure as an explicit error kind
(invalid endpoint, unreachable, or timeout) and never reports failure as a
bare empty path — a successful result is always non-empty. -/
theorem c3_failures_surfaced (P : SearchConfig) (enable : Bool)
    (gb : GridBounds) (occ : GKey → Bool) (pruneOk : GKey → GKey → Bool)
    (C : CostModel) (sk gk : GKey) (elapsed : Nat → ℚ) (fuel : Nat) :
    (∀ p, getNodePathModel P enable gb occ pruneOk C sk gk elapsed fuel =
        Except.ok p → p ≠ []) ∧
    (∀ e, getNodePathModel P enable gb occ pruneOk C sk gk elapsed fuel =
        Except.error e →
      e = PlanError.invalidEndpoint ∨ e = PlanError.unreachable ∨
        e = PlanError.timeout) := by
  constructor
  · intro p hok
    exact (getNodePathModel_ok_spec P enable gb occ pruneOk C sk gk elapsed
      fuel p hok).2.2
  · intro e _
    cases e
    · exact Or.inl rfl
    · exact Or.inr (Or.inl rfl)
    · exact Or.inr (Or.inr rfl)

/-- Witness for C3: the concrete successful run is non-empty, and the
concrete zero-timeout failing run's error is one of the three kinds. -/
theorem c3_failures_witness :
    runPath ≠ [] ∧
    (PlanError.timeout = PlanError.invalidEndpoint ∨
      PlanError.timeout = PlanError.unreachable ∨
      PlanError.timeout = PlanError.timeout) :=
  ⟨(c3_failures_surfaced cfgRun false cubeBounds freeOcc noPrune trivCost
      keyO keyG (fun _ => 0) 30).1 runPath (by with_unfolding_all rfl),
   (c3_failures_surfaced cfgTimeout0 false cubeBounds freeOcc noPrune trivCost
      keyO keyG (fun _ => 1) 4).2 PlanError.timeout (by with_unfolding_all rfl)⟩

/-- C8: whenever the elapsed time read at an iteration exceeds the
planning timeout, the search loop immediately returns the best node found
so far reconstructed as a path when `break_at_timeout` is set, and fails
with the timeout error kind otherwise; in particular, with a zero timeout,
no break fallback, positive elapsed time and valid endpoints, the planner
model reports the timeout kind (and no path). -/
theorem c8_timeout_behavior :
    (∀ (P : SearchConfig) (valid : GKey → Bool) (pruneOk : GKey → GKey → Bool)
      (C : CostModel) (sk gk : GKey) (elapsed : Nat → ℚ) (fuel iter : Nat)
      (st : SState), P.planning_timeout < elapsed iter →
      astarLoop P valid pruneOk C sk gk elapsed (fuel + 1) iter st =
        if P.break_at_timeout then
          Except.ok (reconstructPath st.closed sk (st.closed.length + 1) st.best)
        else Except.error PlanError.timeout) ∧
    (∀ (P : SearchConfig) (enable : Bool) (gb : GridBounds)
      (occ : GKey → Bool) (pruneOk : GKey → GKey → Bool) (C : CostModel)
      (sk gk : GKey) (elapsed : Nat → ℚ) (fuel : Nat),
      P.planning_timeout = 0 → P.break_at_timeout = false → 0 < elapsed 0 →
      isNodeValidM gb occ sk = true → isNodeValidM gb occ gk = true →
      getNodePathModel P enable gb occ pruneOk C sk gk elapsed (fuel + 1) =
        Except.error PlanError.timeout) := by
  constructor
  · intro P valid pruneOk C sk gk elapsed fuel iter st ht
    rw [astarLoop, if_pos ht]
  · intro P enable gb occ pruneOk C sk gk elapsed fuel h0 hb he hs hg
    simp only [getNodePathModel, findValidGoal, hs, hg, Bool.not_true,
      Bool.false_eq_true, if_false, if_true]
    rw [astarLoop]
    rw [if_pos (show P.planning_timeout < elapsed 0 by rw [h0]; exact he)]
    rw [if_neg (show ¬P.break_at_timeout = true by simp [hb])]

/-- Witness for C8: concretely, with the break fallback the loop returns
the best-so-far reconstruction at once, and without it the planner model
reports the timeout kind. -/
theorem c8_timeout_witness :
    astarLoop cfgTimeoutBrk freeOcc noPrune trivCost keyO keyG (fun _ => 1) 1 0
      { openl := [startNode trivCost keyO], closed := [],
        best := startNode trivCost keyO } =
      Except.ok [startNode trivCost keyO] ∧
    getNodePathModel cfgTimeout0 false cubeBounds freeOcc noPrune trivCost
      keyO keyG (fun _ => 1) 4 = Except.error PlanError.timeout := by
  constructor
  · rw [c8_timeout_behavior.1 cfgTimeoutBrk freeOcc noPrune trivCost keyO keyG
      (fun _ => 1) 0 0
      { openl := [startNode trivCost keyO], closed := [],
        best := startNode trivCost keyO } (by decide)]
    rfl
  · exact c8_timeout_behavior.2 cfgTimeout0 false cubeBounds freeOcc noPrune
      trivCost keyO keyG (fun _ => 1) 3 rfl rfl (by decide) (by decide) (by decide)

end DarpaPlanning
